import Mathlib

/-!
Verification of the Wordle-style guess scorer and the challenge progress
tracker of the claude-artifact-runner repository.

Characters are embedded as their Unicode code points (`Nat`); a JS string is
a `List Nat` of code points.  `String.prototype.toLowerCase` restricted to
the ASCII letters is `toLowerCode`.  The JS `Map` of letter counters is a
total function `Nat → Nat` with default 0, matching the source pattern
`letterCounts.get(x) || 0` and the comparison
`letterCounts.get(guessedLetter) > 0`, where an absent key behaves like 0.
-/

namespace ArtifactRunner

/-- ASCII lowercasing of one code point: the model of JS `toLowerCase()`
on the single characters the games compare. -/
def toLowerCode (c : Nat) : Nat :=
  if 65 ≤ c ∧ c ≤ 90 then c + 32 else c

/-- Code points of a string literal, to state concrete examples. -/
def strCodes (s : String) : List Nat :=
  s.data.map Char.toNat

/-- The three values the `matchStatus` array of `renderGuessRow`
(src/unnamed/part_004 lines 621-656) can hold after both passes:
`correct`, `wrong-position`, `incorrect`. -/
inductive MatchStatus where
  | correct
  | wrongPosition
  | incorrect
deriving DecidableEq

/-- `m` with the counter of letter `t` incremented, as in
`letterCounts.set(letter, (letterCounts.get(letter) || 0) + 1)`. -/
def bumpCount (m : Nat → Nat) (t : Nat) : Nat → Nat :=
  fun c => if c = t then m t + 1 else m c

/-- `m` with the counter of letter `g` decremented, as in
`letterCounts.set(guessedLetter, letterCounts.get(guessedLetter) - 1)`. -/
def decCount (m : Nat → Nat) (g : Nat) : Nat → Nat :=
  fun c => if c = g then m g - 1 else m c

/-- The counting loop of `renderGuessRow` (part_004 lines 626-632): for each
index `i` of the target, when `guess[i]?.toLowerCase() !== targetWord[i]`
(also when `guess[i]` is `undefined`, i.e. the guess is shorter), count
`targetWord[i]`.  Both lists are already lowercased; the loop over `i` is
the simultaneous walk of the two lists. -/
def letterCounts : List Nat → List Nat → Nat → Nat
  | [], _ => fun _ => 0
  | t :: ts, [] => bumpCount (letterCounts ts []) t
  | t :: ts, g :: gs =>
    if g = t then letterCounts ts gs else bumpCount (letterCounts ts gs) t

/-- The exact-match marking loop (part_004 lines 634-642): cell `i` is
`correct` exactly when `guess[i]?.toLowerCase() || ""` equals
`targetWord[i]`; when either side is missing (the empty string against a
letter, or a letter against `undefined`) the strict equality is false.  The
walk runs over all `totalCells = max(target.length, guess.length)`
positions, so past the end of the target every cell is `false`. -/
def exactMatches : List Nat → List Nat → List Bool
  | [], gl => gl.map (fun _ => false)
  | _t :: ts, [] => false :: exactMatches ts []
  | t :: ts, g :: gs => decide (g = t) :: exactMatches ts gs

/-- The second pass of `renderGuessRow` (part_004 lines 644-656): cells
already marked `correct` are skipped; otherwise, when the guess has a
letter there and its counter is positive, the cell becomes
`wrong-position` and the counter is decremented, else the cell becomes
`incorrect` (also for the cells where `guessedLetter` is the empty
string). -/
def secondPass : List Bool → List Nat → (Nat → Nat) → List MatchStatus
  | [], _, _ => []
  | b :: bs, [], m =>
    (if b then MatchStatus.correct else MatchStatus.incorrect) :: secondPass bs [] m
  | b :: bs, g :: gs, m =>
    if b then MatchStatus.correct :: secondPass bs gs m
    else if 0 < m g then
      MatchStatus.wrongPosition :: secondPass bs gs (decCount m g)
    else MatchStatus.incorrect :: secondPass bs gs m

/-- The `matchStatus` array computed by `renderGuessRow`
(src/unnamed/part_004 lines 617-656) for `target = currentPair.word` and a
guess: lowercase both, build the availability counters, mark exact matches,
then run the second pass.  The early return of line 616, which fires before
this array is ever computed, is modelled in `renderGuessRow` below. -/
def renderGuessRowStatus (target guess : List Nat) : List MatchStatus :=
  secondPass (exactMatches (target.map toLowerCode) (guess.map toLowerCode))
    (guess.map toLowerCode)
    (letterCounts (target.map toLowerCode) (guess.map toLowerCode))

/-- The whole of `renderGuessRow` (src/unnamed/part_004 lines 615-689) as a
function of the word and the guess: line 616 guards
`if (!currentPair?.word) return null`, so a missing pair or an empty word
returns `null` (`none` here) and no classification is computed; otherwise
the `matchStatus` array is computed as in `renderGuessRowStatus`. -/
def renderGuessRow (target guess : List Nat) : Option (List MatchStatus) :=
  if target = [] then none
  else some (renderGuessRowStatus target guess)

/-- Modelled from the spec: the full letter-frequency histogram of the
target, "built once per call" (spec section 4.1, step 2). -/
def fullCounts : List Nat → Nat → Nat
  | [] => fun _ => 0
  | t :: ts => bumpCount (fullCounts ts) t

/-- Modelled from the spec: pass 1 of the reference algorithm walks the
positions where both sequences have a character left-to-right and, on a
case-insensitive exact match, decrements the matched letter's counter
(spec section 4.1, step 2).  Both lists are already lowercased. -/
def specPass1Counts : List Nat → List Nat → (Nat → Nat) → Nat → Nat
  | [], _, m => m
  | _t :: _ts, [], m => m
  | t :: ts, g :: gs, m =>
    specPass1Counts ts gs (if g = t then decCount m t else m)

/-- Modelled from the spec: the reference two-pass algorithm of spec
section 4.1 — full histogram built once, pass 1 marks exact matches
`correct` and decrements their letters, pass 2 marks the remaining
positions `present-elsewhere` exactly when the remaining counter of the
guess letter is positive, else `absent`. -/
def specClassify (target guess : List Nat) : List MatchStatus :=
  secondPass (exactMatches (target.map toLowerCode) (guess.map toLowerCode))
    (guess.map toLowerCode)
    (specPass1Counts (target.map toLowerCode) (guess.map toLowerCode)
      (fullCounts (target.map toLowerCode)))

/-- Counters of the letters consumed by exact matches: the positions where
both (lowercased) sequences carry the same letter. -/
def matchedCounts : List Nat → List Nat → Nat → Nat
  | [], _ => fun _ => 0
  | _t :: _ts, [] => fun _ => 0
  | t :: ts, g :: gs =>
    if g = t then bumpCount (matchedCounts ts gs) t else matchedCounts ts gs

/-- How many cells are classified `s` while the (lowercased) guess letter
at that cell is `c`; cells past the end of the guess have no letter and are
never counted. -/
def countStatusLetter : List MatchStatus → List Nat → MatchStatus → Nat → Nat
  | [], _, _, _ => 0
  | _st :: sts, [], s, c => countStatusLetter sts [] s c
  | st :: sts, g :: gs, s, c =>
    (if st = s ∧ g = c then 1 else 0) + countStatusLetter sts gs s c

/-- How many cells are exact matches (mask `true`) with guess letter `c`. -/
def maskCount : List Bool → List Nat → Nat → Nat
  | b :: bs, g :: gs, c =>
    (if b = true ∧ g = c then 1 else 0) + maskCount bs gs c
  | _, _, _ => 0

/-- The per-cell class of the simple (non-histogram) `renderGuessRow`
variants: src/src/artifacts/default.tsx lines 436-470,
src/unnamed/part_004 lines 1350-1376 and lines 1964-1997 (the last one
reads the word through `currentPair?.word`, which for a missing pair gives
length 0 and hence a `null` expected letter at every index, the same as
the empty word here).  `expectedLetter` is `word[i]` when
`i < word.length` else `null`; `guessedLetter` is `guess[i] || ""`. -/
def simpleCellClass (word guess : List Nat) (i : Nat) : String :=
  match word[i]?, guess[i]? with
  | some w, some g =>
    if toLowerCode g = toLowerCode w then "bg-green-500 text-white"
    else "bg-gray-300 text-black"
  | some _w, none => "bg-red-500 text-white"
  | none, _ => "bg-gray-300 text-black"

/-- One task-completion record of the challenge tracker
(src/src/types/challenge.ts, the values of
`UserChallengeProgress.task_completions`); `Date` values are embedded as
abstract `Nat` timestamps. -/
structure TaskCompletion where
  completed : Bool
  completed_at : Option Nat
  notes : Option String

/-- `UserChallengeProgress` (src/src/types/challenge.ts lines 41-57); the
nested day/task dictionary is a total function returning `none` for absent
keys. -/
structure UserChallengeProgress where
  id : String
  user_id : String
  challenge_id : String
  level_id : String
  start_date : Nat
  current_day : Nat
  task_completions : Nat → String → Option TaskCompletion

/-- `startChallenge` (src/unnamed/part_006 lines 3-13); the random id and
`new Date()` are inputs of the model. -/
def startChallenge (newId userId challengeId levelId : String) (now : Nat) :
    UserChallengeProgress :=
  { id := newId
    user_id := userId
    challenge_id := challengeId
    level_id := levelId
    start_date := now
    current_day := 1
    task_completions := fun _ _ => none }

/-- `completeTask` (src/unnamed/part_006 lines 88-109): record the task as
completed for the current day, spreading the previous completions; the
`!progress` guard is unreachable under the TypeScript types and is not
modelled. -/
def completeTask (progress : UserChallengeProgress) (taskTemplateId : String)
    (notes : Option String) (now : Nat) : UserChallengeProgress :=
  { progress with
    task_completions := fun day task =>
      if day = progress.current_day ∧ task = taskTemplateId then
        some { completed := true, completed_at := some now, notes := notes }
      else progress.task_completions day task }

/-- `uncompleteTask` (src/unnamed/part_006 lines 111-127): drop the task
from the current day's completions, keeping the rest. -/
def uncompleteTask (progress : UserChallengeProgress)
    (taskTemplateId : String) : UserChallengeProgress :=
  { progress with
    task_completions := fun day task =>
      if day = progress.current_day ∧ task = taskTemplateId then none
      else progress.task_completions day task }

/-- `advanceDay` (src/unnamed/part_006 lines 129-136): unchanged at day 28
or later, else the day advances by one. -/
def advanceDay (progress : UserChallengeProgress) : UserChallengeProgress :=
  if 28 ≤ progress.current_day then progress
  else { progress with current_day := progress.current_day + 1 }

/-- The progress states reachable through the tracker's API from a fresh
challenge. -/
inductive Reachable : UserChallengeProgress → Prop where
  | start (newId userId challengeId levelId : String) (now : Nat) :
      Reachable (startChallenge newId userId challengeId levelId now)
  | complete {p : UserChallengeProgress} (tid : String)
      (notes : Option String) (now : Nat) :
      Reachable p → Reachable (completeTask p tid notes now)
  | uncomplete {p : UserChallengeProgress} (tid : String) :
      Reachable p → Reachable (uncompleteTask p tid)
  | advance {p : UserChallengeProgress} :
      Reachable p → Reachable (advanceDay p)

/-- A freshly started challenge, used as a concrete evaluation point. -/
def startedProgress : UserChallengeProgress :=
  startChallenge "id1" "u1" "c1" "l1" 0

/-- A progress state on the final day 28, used as a concrete evaluation
point. -/
def day28Progress : UserChallengeProgress :=
  { startedProgress with current_day := 28 }

theorem secondPass_length (bs : List Bool) : ∀ (gl : List Nat) (m : Nat → Nat),
    (secondPass bs gl m).length = bs.length := by
  induction bs with
  | nil => intro gl m; cases gl <;> simp [secondPass]
  | cons b bs ih =>
    intro gl m
    cases gl with
    | nil => simp [secondPass, ih]
    | cons g gs =>
      by_cases hb : b
      · simp [secondPass, hb, ih]
      · by_cases hm : 0 < m g <;> simp [secondPass, hb, hm, ih]

theorem exactMatches_length (tl : List Nat) : ∀ gl : List Nat,
    (exactMatches tl gl).length = max tl.length gl.length := by
  induction tl with
  | nil => intro gl; simp [exactMatches]
  | cons t ts ih =>
    intro gl
    cases gl with
    | nil => simp [exactMatches, ih]
    | cons g gs =>
      simp only [exactMatches, List.length_cons, ih]
      omega

theorem toLowerCode_idem (c : Nat) :
    toLowerCode (toLowerCode c) = toLowerCode c := by
  unfold toLowerCode
  split_ifs <;> omega

theorem map_toLowerCode_idem (l : List Nat) :
    (l.map toLowerCode).map toLowerCode = l.map toLowerCode := by
  induction l with
  | nil => rfl
  | cons a l ih => simp [toLowerCode_idem, ih]

theorem exactMatches_self (l : List Nat) :
    exactMatches l l = List.replicate l.length true := by
  induction l with
  | nil => rfl
  | cons a l ih => simp [exactMatches, ih, List.replicate_succ]

theorem secondPass_all_true (gl : List Nat) : ∀ m : Nat → Nat,
    secondPass (List.replicate gl.length true) gl m =
      List.replicate gl.length MatchStatus.correct := by
  induction gl with
  | nil => intro m; rfl
  | cons g gs ih => intro m; simp [List.replicate_succ, secondPass, ih]

theorem exactMatches_extra_false (tl : List Nat) :
    ∀ (gl : List Nat) (i : Nat), tl.length ≤ i →
    ∀ b : Bool, (exactMatches tl gl)[i]? = some b → b = false := by
  induction tl with
  | nil =>
    intro gl i _ b hb
    cases b with
    | false => rfl
    | true =>
      exfalso
      simp only [exactMatches, List.getElem?_map] at hb
      cases hgl : gl[i]? with
      | none => rw [hgl] at hb; simp at hb
      | some g => rw [hgl] at hb; simp at hb
  | cons t ts ih =>
    intro gl i hi b hb
    cases gl with
    | nil =>
      cases i with
      | zero => simp at hi
      | succ j =>
        simp only [exactMatches, List.getElem?_cons_succ] at hb
        exact ih [] j (by simpa using hi) b hb
    | cons g gs =>
      cases i with
      | zero => simp at hi
      | succ j =>
        simp only [exactMatches, List.getElem?_cons_succ] at hb
        exact ih gs j (by simpa using hi) b hb

theorem secondPass_false_not_correct (bs : List Bool) :
    ∀ (gl : List Nat) (m : Nat → Nat) (i : Nat) (s : MatchStatus),
    bs[i]? = some false → (secondPass bs gl m)[i]? = some s →
    s = MatchStatus.wrongPosition ∨ s = MatchStatus.incorrect := by
  induction bs with
  | nil => intro gl m i s hb _; simp at hb
  | cons b bs ih =>
    intro gl m i s hb hs
    cases i with
    | zero =>
      simp only [List.getElem?_cons_zero, Option.some.injEq] at hb
      subst hb
      cases gl with
      | nil =>
        simp only [secondPass, if_neg Bool.false_ne_true,
          List.getElem?_cons_zero, Option.some.injEq] at hs
        right
        exact hs.symm
      | cons g gs =>
        by_cases hm : 0 < m g
        · simp only [secondPass, if_neg Bool.false_ne_true, if_pos hm,
            List.getElem?_cons_zero, Option.some.injEq] at hs
          left
          exact hs.symm
        · simp only [secondPass, if_neg Bool.false_ne_true, if_neg hm,
            List.getElem?_cons_zero, Option.some.injEq] at hs
          right
          exact hs.symm
    | succ j =>
      simp only [List.getElem?_cons_succ] at hb
      cases gl with
      | nil =>
        simp only [secondPass, List.getElem?_cons_succ] at hs
        exact ih [] m j s hb hs
      | cons g gs =>
        by_cases hbv : b
        · simp only [secondPass, if_pos hbv, List.getElem?_cons_succ] at hs
          exact ih gs m j s hb hs
        · by_cases hm : 0 < m g
          · simp only [secondPass, if_neg hbv, if_pos hm,
              List.getElem?_cons_succ] at hs
            exact ih gs (decCount m g) j s hb hs
          · simp only [secondPass, if_neg hbv, if_neg hm,
              List.getElem?_cons_succ] at hs
            exact ih gs m j s hb hs

theorem bumpCount_same (m : Nat → Nat) (t : Nat) :
    bumpCount m t t = m t + 1 := by
  simp [bumpCount]

theorem bumpCount_other (m : Nat → Nat) (t c : Nat) (h : c ≠ t) :
    bumpCount m t c = m c := by
  simp [bumpCount, h]

theorem decCount_same (m : Nat → Nat) (g : Nat) :
    decCount m g g = m g - 1 := by
  simp [decCount]

theorem decCount_other (m : Nat → Nat) (g c : Nat) (h : c ≠ g) :
    decCount m g c = m c := by
  simp [decCount, h]

theorem matchedCounts_nil_right (ts : List Nat) (c : Nat) :
    matchedCounts ts [] c = 0 := by
  cases ts <;> rfl

theorem fullCounts_cons (t : Nat) (ts : List Nat) :
    fullCounts (t :: ts) = bumpCount (fullCounts ts) t := rfl

theorem letterCounts_cons_nil (t : Nat) (ts : List Nat) :
    letterCounts (t :: ts) [] = bumpCount (letterCounts ts []) t := rfl

theorem letterCounts_cons_match (t : Nat) (ts gs : List Nat) :
    letterCounts (t :: ts) (t :: gs) = letterCounts ts gs := by
  simp [letterCounts]

theorem letterCounts_cons_miss (t g : Nat) (ts gs : List Nat) (h : g ≠ t) :
    letterCounts (t :: ts) (g :: gs) = bumpCount (letterCounts ts gs) t := by
  simp [letterCounts, h]

theorem matchedCounts_cons_match (t : Nat) (ts gs : List Nat) :
    matchedCounts (t :: ts) (t :: gs) = bumpCount (matchedCounts ts gs) t := by
  simp [matchedCounts]

theorem matchedCounts_cons_miss (t g : Nat) (ts gs : List Nat) (h : g ≠ t) :
    matchedCounts (t :: ts) (g :: gs) = matchedCounts ts gs := by
  simp [matchedCounts, h]

theorem specPass1Counts_cons_match (t : Nat) (ts gs : List Nat)
    (m : Nat → Nat) :
    specPass1Counts (t :: ts) (t :: gs) m =
      specPass1Counts ts gs (decCount m t) := by
  simp [specPass1Counts]

theorem specPass1Counts_cons_miss (t g : Nat) (ts gs : List Nat)
    (m : Nat → Nat) (h : g ≠ t) :
    specPass1Counts (t :: ts) (g :: gs) m = specPass1Counts ts gs m := by
  simp [specPass1Counts, h]

theorem exactMatches_cons_match (t : Nat) (ts gs : List Nat) :
    exactMatches (t :: ts) (t :: gs) = true :: exactMatches ts gs := by
  simp [exactMatches]

theorem exactMatches_cons_miss (t g : Nat) (ts gs : List Nat) (h : g ≠ t) :
    exactMatches (t :: ts) (g :: gs) = false :: exactMatches ts gs := by
  simp [exactMatches, h]

theorem matched_letter_split (tl : List Nat) : ∀ (gl : List Nat) (c : Nat),
    matchedCounts tl gl c + letterCounts tl gl c = fullCounts tl c := by
  induction tl with
  | nil => intro gl c; cases gl <;> simp [matchedCounts, letterCounts, fullCounts]
  | cons t ts ih =>
    intro gl c
    cases gl with
    | nil =>
      rw [matchedCounts_nil_right, letterCounts_cons_nil, fullCounts_cons]
      by_cases h : c = t
      · subst h
        rw [bumpCount_same, bumpCount_same]
        have h2 := ih [] c
        have h3 := matchedCounts_nil_right ts c
        omega
      · rw [bumpCount_other _ _ _ h, bumpCount_other _ _ _ h]
        have h2 := ih [] c
        have h3 := matchedCounts_nil_right ts c
        omega
    | cons g gs =>
      rw [fullCounts_cons]
      by_cases hg : g = t
      · subst hg
        rw [matchedCounts_cons_match, letterCounts_cons_match]
        by_cases h : c = g
        · subst h
          rw [bumpCount_same, bumpCount_same]
          have h2 := ih gs c
          omega
        · rw [bumpCount_other _ _ _ h, bumpCount_other _ _ _ h]
          exact ih gs c
      · rw [matchedCounts_cons_miss _ _ _ _ hg, letterCounts_cons_miss _ _ _ _ hg]
        by_cases h : c = t
        · subst h
          rw [bumpCount_same, bumpCount_same]
          have h2 := ih gs c
          omega
        · rw [bumpCount_other _ _ _ h, bumpCount_other _ _ _ h]
          exact ih gs c

theorem specPass1_formula (tl : List Nat) : ∀ (gl : List Nat) (m : Nat → Nat),
    (∀ d, matchedCounts tl gl d ≤ m d) →
    ∀ c, specPass1Counts tl gl m c = m c - matchedCounts tl gl c := by
  induction tl with
  | nil =>
    intro gl m _ c
    cases gl <;> simp [specPass1Counts, matchedCounts]
  | cons t ts ih =>
    intro gl m hle c
    cases gl with
    | nil => simp [specPass1Counts, matchedCounts_nil_right]
    | cons g gs =>
      by_cases hg : g = t
      · subst hg
        rw [specPass1Counts_cons_match, matchedCounts_cons_match]
        have hle2 : ∀ d, matchedCounts ts gs d ≤ decCount m g d := by
          intro d
          have hd2 := hle d
          rw [matchedCounts_cons_match] at hd2
          by_cases hd : d = g
          · subst hd
            rw [bumpCount_same] at hd2
            rw [decCount_same]
            omega
          · rw [bumpCount_other _ _ _ hd] at hd2
            rw [decCount_other _ _ _ hd]
            exact hd2
        rw [ih gs (decCount m g) hle2 c]
        have hc2 := hle g
        rw [matchedCounts_cons_match, bumpCount_same] at hc2
        by_cases hc : c = g
        · subst hc
          rw [decCount_same, bumpCount_same]
          omega
        · rw [decCount_other _ _ _ hc, bumpCount_other _ _ _ hc]
      · rw [specPass1Counts_cons_miss _ _ _ _ _ hg,
          matchedCounts_cons_miss _ _ _ _ hg]
        refine ih gs m ?_ c
        intro d
        have hd2 := hle d
        rwa [matchedCounts_cons_miss _ _ _ _ hg] at hd2

theorem letterCounts_eq_specPass1 (tl gl : List Nat) :
    letterCounts tl gl = specPass1Counts tl gl (fullCounts tl) := by
  funext c
  have hle : ∀ d, matchedCounts tl gl d ≤ fullCounts tl d := by
    intro d
    have := matched_letter_split tl gl d
    omega
  rw [specPass1_formula tl gl (fullCounts tl) hle c]
  have := matched_letter_split tl gl c
  omega

theorem countStatusLetter_nil (sts : List MatchStatus) (s : MatchStatus)
    (c : Nat) : countStatusLetter sts [] s c = 0 := by
  induction sts with
  | nil => rfl
  | cons st rest ih => simpa [countStatusLetter] using ih

theorem maskCount_exactMatches (tl : List Nat) : ∀ (gl : List Nat) (c : Nat),
    maskCount (exactMatches tl gl) gl c = matchedCounts tl gl c := by
  induction tl with
  | nil =>
    intro gl c
    induction gl with
    | nil => rfl
    | cons g gs ihg =>
      have h1 : exactMatches [] (g :: gs) = false :: exactMatches [] gs := rfl
      rw [h1]
      have h2 : maskCount (false :: exactMatches [] gs) (g :: gs) c =
          (if false = true ∧ g = c then 1 else 0)
            + maskCount (exactMatches [] gs) gs c := rfl
      rw [h2, ihg]
      simp [matchedCounts]
  | cons t ts ih =>
    intro gl c
    cases gl with
    | nil => rfl
    | cons g gs =>
      by_cases hg : g = t
      · subst hg
        rw [exactMatches_cons_match, matchedCounts_cons_match]
        have h2 : maskCount (true :: exactMatches ts gs) (g :: gs) c =
            (if true = true ∧ g = c then 1 else 0)
              + maskCount (exactMatches ts gs) gs c := rfl
        rw [h2, ih gs c]
        by_cases hc : c = g
        · subst hc
          rw [bumpCount_same]
          simp only [and_self, eq_self_iff_true, true_and, if_true]
          omega
        · rw [bumpCount_other _ _ _ hc,
            if_neg (fun hh => hc hh.2.symm)]
          omega
      · rw [exactMatches_cons_miss _ _ _ _ hg,
          matchedCounts_cons_miss _ _ _ _ hg]
        have h2 : maskCount (false :: exactMatches ts gs) (g :: gs) c =
            (if false = true ∧ g = c then 1 else 0)
              + maskCount (exactMatches ts gs) gs c := rfl
        rw [h2, ih gs c]
        simp

theorem secondPass_budget (bs : List Bool) :
    ∀ (gl : List Nat) (m : Nat → Nat) (c : Nat),
    countStatusLetter (secondPass bs gl m) gl MatchStatus.correct c
      + countStatusLetter (secondPass bs gl m) gl MatchStatus.wrongPosition c
      ≤ maskCount bs gl c + m c := by
  induction bs with
  | nil =>
    intro gl m c
    cases gl <;> simp [secondPass, countStatusLetter, maskCount]
  | cons b bs ih =>
    intro gl m c
    cases gl with
    | nil =>
      simp [secondPass, countStatusLetter_nil]
    | cons g gs =>
      have hcount : ∀ (st : MatchStatus) (rest : List MatchStatus)
          (s : MatchStatus),
          countStatusLetter (st :: rest) (g :: gs) s c =
            (if st = s ∧ g = c then 1 else 0)
              + countStatusLetter rest gs s c := fun _ _ _ => rfl
      have hmask : maskCount (b :: bs) (g :: gs) c =
          (if b = true ∧ g = c then 1 else 0) + maskCount bs gs c := rfl
      cases b with
      | true =>
        have hsp : secondPass (true :: bs) (g :: gs) m =
            MatchStatus.correct :: secondPass bs gs m := by
          simp [secondPass]
        rw [hsp, hmask, hcount, hcount]
        have hih := ih gs m c
        by_cases hgc : g = c
        · simp only [hgc, and_true, eq_self_iff_true, if_true]
          simp only [show (MatchStatus.correct = MatchStatus.correct) = True by simp,
            show (MatchStatus.correct = MatchStatus.wrongPosition) = False by simp,
            true_and, false_and, if_true, if_false]
          omega
        · simp only [hgc, and_false, if_false]
          omega
      | false =>
        by_cases hm : 0 < m g
        · have hsp : secondPass (false :: bs) (g :: gs) m =
              MatchStatus.wrongPosition :: secondPass bs gs (decCount m g) := by
            simp [secondPass, hm]
          rw [hsp, hmask, hcount, hcount]
          have hih := ih gs (decCount m g) c
          by_cases hgc : g = c
          · subst hgc
            rw [decCount_same] at hih
            simp only [show (MatchStatus.wrongPosition = MatchStatus.correct) = False by simp,
              show (MatchStatus.wrongPosition = MatchStatus.wrongPosition) = True by simp,
              show (false = true) = False by simp,
              true_and, false_and, if_true, if_false,
              eq_self_iff_true, and_true]
            omega
          · rw [decCount_other _ _ _ (fun h => hgc h.symm)] at hih
            simp only [hgc, and_false, if_false]
            omega
        · have hsp : secondPass (false :: bs) (g :: gs) m =
              MatchStatus.incorrect :: secondPass bs gs m := by
            simp [secondPass, hm]
          rw [hsp, hmask, hcount, hcount]
          have hih := ih gs m c
          simp only [show (MatchStatus.incorrect = MatchStatus.correct) = False by simp,
            show (MatchStatus.incorrect = MatchStatus.wrongPosition) = False by simp,
            show (false = true) = False by simp,
            false_and, if_false]
          omega

theorem fullCounts_eq_count (l : List Nat) (c : Nat) :
    fullCounts l c = l.count c := by
  induction l with
  | nil => simp [fullCounts]
  | cons a l ih =>
    rw [List.count_cons]
    by_cases h : c = a
    · subst h
      rw [show fullCounts (c :: l) c = fullCounts l c + 1 from bumpCount_same _ _]
      simp [ih]
    · have hac : ¬a = c := fun hh => h hh.symm
      rw [show fullCounts (a :: l) c = fullCounts l c from bumpCount_other _ _ _ h]
      simp [hac, ih]

/-- C4: classifying guess PPLEA against target APPLE yields exactly
present-elsewhere, correct, present-elsewhere, present-elsewhere,
present-elsewhere. -/
theorem classify_apple_pplea :
    renderGuessRowStatus (strCodes "APPLE") (strCodes "PPLEA") =
      [MatchStatus.wrongPosition, MatchStatus.correct, MatchStatus.wrongPosition,
       MatchStatus.wrongPosition, MatchStatus.wrongPosition] := by
  decide

/-- C5: classifying guess ROAR against target ERROR yields a length-five
output, present-elsewhere, present-elsewhere, absent, present-elsewhere,
absent, where the final cell has no guess character (the guess is one
character shorter than the target), making it the missing-position absent
marker. -/
theorem classify_error_roar :
    renderGuessRowStatus (strCodes "ERROR") (strCodes "ROAR") =
      [MatchStatus.wrongPosition, MatchStatus.wrongPosition, MatchStatus.incorrect,
       MatchStatus.wrongPosition, MatchStatus.incorrect]
    ∧ (renderGuessRowStatus (strCodes "ERROR") (strCodes "ROAR")).length = 5
    ∧ (strCodes "ROAR").length + 1 = (strCodes "ERROR").length
    ∧ (strCodes "ROAR")[4]? = none := by
  refine ⟨by decide, by decide, by decide, by decide⟩

/-- C6: for a non-empty target, classifying the target against itself
yields correct at every output position. -/
theorem classify_self_all_correct (target : List Nat) (_h : target ≠ []) :
    renderGuessRowStatus target target =
      List.replicate target.length MatchStatus.correct := by
  unfold renderGuessRowStatus
  rw [exactMatches_self, secondPass_all_true]
  simp

theorem classify_self_all_correct_witness :
    strCodes "abc" ≠ [] ∧
      renderGuessRowStatus (strCodes "abc") (strCodes "abc") =
        List.replicate (strCodes "abc").length MatchStatus.correct :=
  ⟨by decide, classify_self_all_correct (strCodes "abc") (by decide)⟩

/-- C7: the scorer is case-insensitive — the classification is unchanged
when both inputs are replaced by their lowercase forms. -/
theorem classify_case_insensitive (target guess : List Nat) :
    renderGuessRowStatus target guess =
      renderGuessRowStatus (target.map toLowerCode) (guess.map toLowerCode) := by
  unfold renderGuessRowStatus
  rw [map_toLowerCode_idem, map_toLowerCode_idem]

/-- C8 counterexample: for the empty target the guard of line 616 returns
null before any classification is computed, even though the guess is
non-empty and the claimed output length max(len target, len guess) would
be 2 — the scorer is not total over every pair including empty strings. -/
theorem empty_target_returns_null :
    renderGuessRow (strCodes "") (strCodes "ab") = none ∧
      max (strCodes "").length (strCodes "ab").length = 2 := by
  refine ⟨by decide, by decide⟩

/-- C8 amended: for every non-empty target the scorer is total — for every
guess (including empty, mismatched-length and non-letter ones) it returns a
defined classification sequence of length max(len target, len guess) and
never fails; for an empty (falsy) word the function instead returns null
at line 616 before computing any classification. -/
theorem classify_total_length_nonempty (target guess : List Nat)
    (h : target ≠ []) :
    ∃ out, renderGuessRow target guess = some out
      ∧ out.length = max target.length guess.length := by
  refine ⟨renderGuessRowStatus target guess, ?_, ?_⟩
  · simp [renderGuessRow, h]
  · unfold renderGuessRowStatus
    rw [secondPass_length, exactMatches_length]
    simp

theorem classify_total_length_nonempty_witness :
    strCodes "a" ≠ [] ∧
      ∃ out, renderGuessRow (strCodes "a") (strCodes "xyz") = some out
        ∧ out.length = max (strCodes "a").length (strCodes "xyz").length :=
  ⟨by decide,
    classify_total_length_nonempty (strCodes "a") (strCodes "xyz") (by decide)⟩

/-- C2: the implementation's per-position classification equals the spec's
reference two-pass algorithm, which builds the target's full
letter-frequency histogram once, decrements it on pass-1 exact matches,
and then marks present-elsewhere exactly while counters stay positive. -/
theorem renderGuessRow_refines_spec_two_pass (target guess : List Nat) :
    renderGuessRowStatus target guess = specClassify target guess := by
  unfold renderGuessRowStatus specClassify
  rw [letterCounts_eq_specPass1]

/-- C3: for every letter value, the number of cells classified correct
with that guess letter plus the number classified present-elsewhere with
that guess letter never exceeds the letter's occurrence count in the
(lowercased) target. -/
theorem letter_budget_invariant (target guess : List Nat) (c : Nat) :
    countStatusLetter (renderGuessRowStatus target guess)
        (guess.map toLowerCode) MatchStatus.correct c
      + countStatusLetter (renderGuessRowStatus target guess)
        (guess.map toLowerCode) MatchStatus.wrongPosition c
      ≤ (target.map toLowerCode).count c := by
  unfold renderGuessRowStatus
  have hb := secondPass_budget
    (exactMatches (target.map toLowerCode) (guess.map toLowerCode))
    (guess.map toLowerCode)
    (letterCounts (target.map toLowerCode) (guess.map toLowerCode)) c
  have hm := maskCount_exactMatches (target.map toLowerCode)
    (guess.map toLowerCode) c
  have hs := matched_letter_split (target.map toLowerCode)
    (guess.map toLowerCode) c
  have hf := fullCounts_eq_count (target.map toLowerCode) c
  omega

/-- C1 counterexample: for target "a" and the strictly longer guess "ba",
the output position 1 — at the target's length — is classified
wrong-position (present-elsewhere), not absent. -/
theorem extra_position_can_be_wrong_position :
    (strCodes "a").length < (strCodes "ba").length ∧
      (renderGuessRowStatus (strCodes "a") (strCodes "ba"))[1]? =
        some MatchStatus.wrongPosition ∧
      MatchStatus.wrongPosition ≠ MatchStatus.incorrect := by
  refine ⟨by decide, by decide, by decide⟩

/-- C1 amended: for every target and guess, an output position at an index
at or beyond the target's length is never classified correct — it is
classified either present-elsewhere (when the guess letter's remaining
counter is positive) or absent. -/
theorem extra_positions_never_correct (target guess : List Nat) (i : Nat)
    (s : MatchStatus) (hi : target.length ≤ i)
    (hs : (renderGuessRowStatus target guess)[i]? = some s) :
    s = MatchStatus.wrongPosition ∨ s = MatchStatus.incorrect := by
  unfold renderGuessRowStatus at hs
  have hlt : i < (secondPass
      (exactMatches (target.map toLowerCode) (guess.map toLowerCode))
      (guess.map toLowerCode)
      (letterCounts (target.map toLowerCode) (guess.map toLowerCode))).length :=
    (List.getElem?_eq_some.mp hs).1
  rw [secondPass_length] at hlt
  have hbm : (exactMatches (target.map toLowerCode)
      (guess.map toLowerCode))[i]? =
      some ((exactMatches (target.map toLowerCode)
        (guess.map toLowerCode))[i]) := List.getElem?_eq_getElem hlt
  have hfalse := exactMatches_extra_false (target.map toLowerCode)
    (guess.map toLowerCode) i (by simpa using hi) _ hbm
  rw [hfalse] at hbm
  exact secondPass_false_not_correct _ _ _ i s hbm hs

theorem extra_positions_never_correct_witness :
    (strCodes "a").length ≤ 1 ∧
      (renderGuessRowStatus (strCodes "a") (strCodes "ba"))[1]? =
        some MatchStatus.wrongPosition ∧
      (MatchStatus.wrongPosition = MatchStatus.wrongPosition ∨
        MatchStatus.wrongPosition = MatchStatus.incorrect) :=
  ⟨by decide, by decide,
    extra_positions_never_correct (strCodes "a") (strCodes "ba") 1
      MatchStatus.wrongPosition (by decide) (by decide)⟩

/-- C9: the non-histogram renderGuessRow variants color each cell from
that cell alone — a cell is green (correct) exactly when the guess letter
at that index case-insensitively equals the target letter at the same
index, the wrong-position yellow class is never produced, and the cell
depends only on the two letters at its own index. -/
theorem simple_variants_no_wrong_position (word guess : List Nat) (i : Nat) :
    (simpleCellClass word guess i = "bg-green-500 text-white"
      ∨ simpleCellClass word guess i = "bg-gray-300 text-black"
      ∨ simpleCellClass word guess i = "bg-red-500 text-white")
    ∧ (simpleCellClass word guess i = "bg-green-500 text-white"
        ↔ ∃ w g, word[i]? = some w ∧ guess[i]? = some g ∧
            toLowerCode g = toLowerCode w)
    ∧ simpleCellClass word guess i =
        simpleCellClass (word[i]?).toList (guess[i]?).toList 0 := by
  rcases hw : word[i]? with _ | w <;> rcases hg : guess[i]? with _ | g
  · have hval : simpleCellClass word guess i = "bg-gray-300 text-black" := by
      simp [simpleCellClass, hw, hg]
    refine ⟨Or.inr (Or.inl hval),
      ⟨fun h => by rw [hval] at h; exact absurd h (by decide), fun hx => ?_⟩,
      by rw [hval]; rfl⟩
    obtain ⟨w, g, hw2, hg2, hlg2⟩ := hx
    cases hw2
  · have hval : simpleCellClass word guess i = "bg-gray-300 text-black" := by
      simp [simpleCellClass, hw, hg]
    refine ⟨Or.inr (Or.inl hval),
      ⟨fun h => by rw [hval] at h; exact absurd h (by decide), fun hx => ?_⟩,
      by rw [hval]; rfl⟩
    obtain ⟨w, g2, hw2, hg2, hlg2⟩ := hx
    cases hw2
  · have hval : simpleCellClass word guess i = "bg-red-500 text-white" := by
      simp [simpleCellClass, hw, hg]
    refine ⟨Or.inr (Or.inr hval),
      ⟨fun h => by rw [hval] at h; exact absurd h (by decide), fun hx => ?_⟩,
      by rw [hval]; rfl⟩
    obtain ⟨w2, g, hw2, hg2, hlg2⟩ := hx
    cases hg2
  · by_cases hlg : toLowerCode g = toLowerCode w
    · have hval : simpleCellClass word guess i = "bg-green-500 text-white" := by
        simp [simpleCellClass, hw, hg, hlg]
      refine ⟨Or.inl hval,
        ⟨fun _ => ⟨w, g, rfl, rfl, hlg⟩, fun _ => hval⟩,
        by rw [hval]; simp [simpleCellClass, hlg]⟩
    · have hval : simpleCellClass word guess i = "bg-gray-300 text-black" := by
        simp [simpleCellClass, hw, hg, hlg]
      refine ⟨Or.inr (Or.inl hval),
        ⟨fun h => by rw [hval] at h; exact absurd h (by decide), fun hx => ?_⟩,
        by rw [hval]; simp [simpleCellClass, hlg]⟩
      obtain ⟨w2, g2, hw2, hg2, hlg2⟩ := hx
      cases hw2
      cases hg2
      exact absurd hlg2 hlg

/-- C10: advanceDay is the identity at day 28 or later, otherwise it
increments current_day by exactly 1 and leaves every other field
unchanged; consequently every progress state reachable from startChallenge
by completeTask, uncompleteTask and advanceDay keeps current_day between 1
and 28 inclusive. -/
theorem advanceDay_bounds :
    (∀ p : UserChallengeProgress, 28 ≤ p.current_day → advanceDay p = p)
    ∧ (∀ p : UserChallengeProgress, p.current_day < 28 →
        (advanceDay p).current_day = p.current_day + 1
        ∧ (advanceDay p).id = p.id
        ∧ (advanceDay p).user_id = p.user_id
        ∧ (advanceDay p).challenge_id = p.challenge_id
        ∧ (advanceDay p).level_id = p.level_id
        ∧ (advanceDay p).start_date = p.start_date
        ∧ (advanceDay p).task_completions = p.task_completions)
    ∧ (∀ p : UserChallengeProgress, Reachable p →
        1 ≤ p.current_day ∧ p.current_day ≤ 28) := by
  refine ⟨?_, ?_, ?_⟩
  · intro p hp
    simp [advanceDay, hp]
  · intro p hp
    have hnot : ¬ 28 ≤ p.current_day := by omega
    simp [advanceDay, hnot]
  · intro p hp
    induction hp with
    | start newId userId challengeId levelId now => simp [startChallenge]
    | complete tid notes now _ ih => simpa [completeTask] using ih
    | uncomplete tid _ ih => simpa [uncompleteTask] using ih
    | advance _ ih =>
      simp only [advanceDay]
      split_ifs with h
      · exact ih
      · simp only [UserChallengeProgress.mk.injEq]
        omega

theorem advanceDay_bounds_witness :
    (28 ≤ day28Progress.current_day ∧ advanceDay day28Progress = day28Progress)
    ∧ (startedProgress.current_day < 28 ∧
        (advanceDay startedProgress).current_day =
          startedProgress.current_day + 1)
    ∧ (1 ≤ startedProgress.current_day ∧ startedProgress.current_day ≤ 28) :=
  ⟨⟨by decide, advanceDay_bounds.1 day28Progress (by decide)⟩,
   ⟨by decide, (advanceDay_bounds.2.1 startedProgress (by decide)).1⟩,
   advanceDay_bounds.2.2 startedProgress (Reachable.start "id1" "u1" "c1" "l1" 0)⟩

end ArtifactRunner
